import Mathlib

/-!
A verification development for the Balsam launcher core.

The definitions below are shallow embeddings of the Python sources:
`balsam/service/models.py` (task state machine and optimistic-lock save path),
`balsamlauncher/runners.py` (Runner / RunnerGroup), and
`balsam/launcher/mpi_ensemble_pull.py` (the pull-based MPI ensemble master and
workers), plus `balsam/launcher/launcher.py` (startup recovery).

Python ints become `Int`/`Nat`.  Python floats used for node-occupancy
bookkeeping become `ℚ`: this is an idealization (the source accumulates
IEEE-754 doubles, whose rounding the embedding does not reproduce), noted
where it matters.  Timestamps produced by `datetime.now` are threaded as
explicit string parameters.  Fallible code (raised exceptions) is modelled
with `Except`/`Option`.
-/

namespace Balsam

/-- The `STATES` list of `balsam/service/models.py`. -/
def STATES : List String :=
  ["CREATED", "LAUNCHER_QUEUED", "AWAITING_PARENTS", "READY",
   "STAGED_IN", "PREPROCESSED",
   "RUNNING", "RUN_DONE",
   "POSTPROCESSED", "JOB_FINISHED",
   "RUN_TIMEOUT", "RUN_ERROR", "RESTART_READY",
   "FAILED", "USER_KILLED", "PARENT_KILLED"]

/-- Function `history_line` of models.py: `f"\n[{ts} {state}] ".rjust(46) + message`.
The wall-clock timestamp is passed in as `ts`. -/
def history_line (ts state message : String) : String :=
  let core := "\n[" ++ ts ++ " " ++ state ++ "] "
  String.mk (List.replicate (46 - core.length) ' ') ++ core ++ message

/-- The store-visible fields of a `BalsamJob` that `update_state` touches. -/
structure JobRec where
  state : String
  state_history : String
deriving DecidableEq, Repr

/-- Exceptions escaping `BalsamJob.update_state`: `InvalidStateError` and the
optimistic-lock `RecordModifiedError`. -/
inductive UpdateErr
  | invalidState
  | recordModified
deriving DecidableEq, Repr

/-- Method `BalsamJob.update_state` of models.py.  `stored` is the store content at
the refresh performed on entry; `conflict` tells whether the first save raises
`RecordModifiedError`, and `storeAtConflict` is the store content refreshed in
that handler.  The result is the store content after the call returns. -/
def update_state (stored : JobRec) (new_state message ts : String)
    (conflict : Bool) (storeAtConflict : JobRec) : Except UpdateErr JobRec :=
  if new_state ∉ STATES then .error .invalidState
  else if stored.state = "USER_KILLED" then .ok stored
  else
    let line := history_line ts new_state message
    if conflict = false then
      .ok ⟨new_state, stored.state_history ++ line⟩
    else
      if storeAtConflict.state = "USER_KILLED" ∧ new_state ≠ "USER_KILLED" then
        .ok storeAtConflict
      else if new_state = "USER_KILLED" then
        .ok ⟨new_state, storeAtConflict.state_history ++ line⟩
      else .error .recordModified

/-- C1: `USER_KILLED` is absorbing in the task-model save path.  A task whose
stored state is `USER_KILLED` is returned unchanged by `update_state` for any
valid target state; and in the optimistic-lock conflict handler the write is
silently dropped when the refreshed state is `USER_KILLED`, re-applied and
saved when the new state is `USER_KILLED`, and the conflict re-raised
otherwise. -/
theorem C1_user_killed_absorbing (stored cs : JobRec) (ns message ts : String) :
    (ns ∈ STATES → stored.state = "USER_KILLED" →
      ∀ c : Bool, update_state stored ns message ts c cs = .ok stored) ∧
    (ns ∈ STATES → stored.state ≠ "USER_KILLED" → cs.state = "USER_KILLED" →
      ns ≠ "USER_KILLED" →
      update_state stored ns message ts true cs = .ok cs) ∧
    (stored.state ≠ "USER_KILLED" →
      update_state stored "USER_KILLED" message ts true cs =
        .ok ⟨"USER_KILLED",
             cs.state_history ++ history_line ts "USER_KILLED" message⟩) ∧
    (ns ∈ STATES → stored.state ≠ "USER_KILLED" → cs.state ≠ "USER_KILLED" →
      ns ≠ "USER_KILLED" →
      update_state stored ns message ts true cs = .error .recordModified) := by
  refine ⟨?_, ?_, ?_, ?_⟩
  · intro hmem hk c
    simp [update_state, hmem, hk]
  · intro hmem hnk hcs hne
    simp [update_state, hmem, hnk, hcs, hne]
  · intro hnk
    have hmem : "USER_KILLED" ∈ STATES := by decide
    simp [update_state, hmem, hnk]
  · intro hmem hnk hcs hne
    simp [update_state, hmem, hnk, hcs, hne]

/-- Witness for C1 at concrete inputs. -/
theorem C1_user_killed_absorbing_witness :
    (update_state ⟨"USER_KILLED", "h"⟩ "RUN_DONE" "m" "t" false ⟨"READY", "g"⟩ =
      .ok ⟨"USER_KILLED", "h"⟩) ∧
    (update_state ⟨"RUNNING", "h"⟩ "RUN_DONE" "m" "t" true ⟨"USER_KILLED", "g"⟩ =
      .ok ⟨"USER_KILLED", "g"⟩) ∧
    (update_state ⟨"RUNNING", "h"⟩ "USER_KILLED" "m" "t" true ⟨"READY", "g"⟩ =
      .ok ⟨"USER_KILLED", "g" ++ history_line "t" "USER_KILLED" "m"⟩) ∧
    (update_state ⟨"RUNNING", "h"⟩ "RUN_DONE" "m" "t" true ⟨"READY", "g"⟩ =
      .error .recordModified) := by
  refine ⟨?_, ?_, ?_, ?_⟩
  · exact (C1_user_killed_absorbing ⟨"USER_KILLED", "h"⟩ ⟨"READY", "g"⟩
      "RUN_DONE" "m" "t").1 (by decide) rfl false
  · exact (C1_user_killed_absorbing ⟨"RUNNING", "h"⟩ ⟨"USER_KILLED", "g"⟩
      "RUN_DONE" "m" "t").2.1 (by decide) (by decide) rfl (by decide)
  · exact (C1_user_killed_absorbing ⟨"RUNNING", "h"⟩ ⟨"READY", "g"⟩
      "RUN_DONE" "m" "t").2.2.1 (by decide)
  · exact (C1_user_killed_absorbing ⟨"RUNNING", "h"⟩ ⟨"READY", "g"⟩
      "RUN_DONE" "m" "t").2.2.2 (by decide) (by decide) (by decide) (by decide)

/-! ### Startup recovery (`launcher.py: detect_dead_runners`) -/

/-- One iteration of `detect_dead_runners`: a job found in `RUNNING` gets
`update_state('RESTART_READY', 'Detected dead runner')`; jobs selected by
`by_states('RUNNING')` are exactly those whose state is `RUNNING`, so any
other job is untouched.  Sequential (startup) setting: no save conflict. -/
def detectStep (ts : String) (j : JobRec) : JobRec :=
  if j.state = "RUNNING" then
    match update_state j "RESTART_READY" "Detected dead runner" ts false j with
    | .ok j' => j'
    | .error _ => j
  else j

/-- Function `detect_dead_runners` of launcher.py, as its net effect on the store. -/
def detect_dead_runners (ts : String) (store : List JobRec) : List JobRec :=
  store.map (detectStep ts)

/-- C9: at Launcher startup every task found in `RUNNING` is transitioned to
`RESTART_READY` with the history message "Detected dead runner", and no task
in any other state is modified. -/
theorem C9_detect_dead_runners (ts : String) (j : JobRec) :
    (j.state = "RUNNING" →
      detectStep ts j =
        ⟨"RESTART_READY",
         j.state_history ++ history_line ts "RESTART_READY" "Detected dead runner"⟩) ∧
    (j.state ≠ "RUNNING" → detectStep ts j = j) ∧
    (∀ store : List JobRec, detect_dead_runners ts store = store.map (detectStep ts)) := by
  refine ⟨?_, ?_, fun _ => rfl⟩
  · intro hr
    have hmem : "RESTART_READY" ∈ STATES := by decide
    have hnk : j.state ≠ "USER_KILLED" := by rw [hr]; decide
    simp [detectStep, hr, update_state, hmem, hnk]
  · intro hnr
    simp [detectStep, hnr]

/-- Witness for C9 at concrete inputs. -/
theorem C9_detect_dead_runners_witness :
    detectStep "t" ⟨"RUNNING", "h"⟩ =
      ⟨"RESTART_READY", "h" ++ history_line "t" "RESTART_READY" "Detected dead runner"⟩ ∧
    detectStep "t" ⟨"READY", "h"⟩ = ⟨"READY", "h"⟩ :=
  ⟨(C9_detect_dead_runners "t" ⟨"RUNNING", "h"⟩).1 rfl,
   (C9_detect_dead_runners "t" ⟨"READY", "h"⟩).2.1 (by decide)⟩

/-! ### Runner return-code semantics (`runners.py`, `mpi_ensemble_pull.py`) -/

/-- The `(curstate, msg)` pair computed by `MPIRunner.update_jobs` from
`self.process.poll()`. -/
def mpiRunnerPoll : Option Int → String × String
  | none => ("RUNNING", "")
  | some rc => if rc = 0 then ("RUN_DONE", "") else ("RUN_ERROR", toString rc)

/-- Method `MPIRunner.update_jobs`: polls the subprocess and, when the job's current
state differs from the computed one, writes it via `update_state` (sequential
model: the in-memory job equals the stored one, no save conflict). -/
def mpi_runner_update_jobs (job : JobRec) (retcode : Option Int) (ts : String) : JobRec :=
  let cm := mpiRunnerPoll retcode
  if job.state ≠ cm.1 then
    match update_state job cm.1 cm.2 ts false job with
    | .ok j' => j'
    | .error _ => job
  else job

/-- Method `Runner.timeout` applied to one supervised job: jobs in `RUNNING` get
`update_state('RUN_TIMEOUT')`, all others are untouched. -/
def timeoutStep (ts : String) (j : JobRec) : JobRec :=
  if j.state = "RUNNING" then
    match update_state j "RUN_TIMEOUT" "" ts false j with
    | .ok j' => j'
    | .error _ => j
  else j

/-- Method `Runner.timeout` of runners.py: SIGTERM the process (not modelled), then
mark every still-`RUNNING` job `RUN_TIMEOUT`. -/
def runner_timeout (ts : String) (jobs : List JobRec) : List JobRec :=
  jobs.map (timeoutStep ts)

/-- Modelled from the spec: `get_tail` lives in `balsam/launcher/util.py`,
which is not in the sources; the spec describes it as the last at most
`nlines` lines of the output file.  Lines are joined back with newlines. -/
def get_tail (nlines : Nat) (outLines : List String) : String :=
  String.intercalate "\n" (outLines.drop (outLines.length - nlines))

/-- Messages a Worker rank sends back to the ensemble master.  `elapsed` is
the `parse_real_time` result (from the missing util module), threaded
through opaquely. -/
inductive WorkerMsg
  | ask
  | doneMsg (elapsed : Option String)
  | errorMsg (retcode : Int) (tail : String)
deriving DecidableEq, Repr

/-- The message selection at the bottom of `Worker.main` in
mpi_ensemble_pull.py, given the `wait_for_retcode` result. -/
def worker_report (retcode : Option Int) (outLines : List String)
    (elapsed : Option String) : WorkerMsg :=
  match retcode with
  | none => .ask
  | some rc => if rc = 0 then .doneMsg elapsed else .errorMsg rc (get_tail 10 outLines)

/-- The state message written by `ResourceManager._handle_error`:
`f"nonzero return {retcode}: {tail}"`. -/
def handle_error_msg (retcode : Int) (tail : String) : String :=
  "nonzero return " ++ toString retcode ++ ": " ++ tail

/-- C5 counterexample: the claim says a nonzero exit code leads to
`RUN_ERROR` with the last at most 10 lines of the task's output as the state
message; but `MPIRunner.update_jobs` uses `str(retcode)` as the message, so
for return code 3 and an output ending in "hello" the message is "3", not
"hello". -/
theorem C5_counterexample :
    ¬ (∀ rc : Int, rc ≠ 0 → ∀ outLines : List String,
        mpiRunnerPoll (some rc) = ("RUN_ERROR", get_tail 10 outLines)) := by
  intro h
  have h3 := h 3 (by decide) ["hello"]
  have : (("RUN_ERROR", "3") : String × String) = ("RUN_ERROR", "hello") := by
    calc (("RUN_ERROR", "3") : String × String)
        = mpiRunnerPoll (some 3) := by decide
      _ = ("RUN_ERROR", get_tail 10 ["hello"]) := h3
      _ = ("RUN_ERROR", "hello") := by decide
  exact absurd this (by decide)

/-- C5 (amended): exit code 0 leads to `RUN_DONE`; a nonzero exit code leads
to `RUN_ERROR`, where the MPI-single runner's state message is the return
code rendered as a string, while the ensemble worker sends the last at most
10 lines of the output as the tail of an `ERROR` message which the master
embeds in the state message "nonzero return {retcode}: {tail}"; and a
`timeout()` invoked while the task is `RUNNING` leaves it in `RUN_TIMEOUT`
(tasks not in `RUNNING` are untouched). -/
theorem C5_return_code_semantics (rc : Int) (outLines : List String)
    (elapsed : Option String) (j : JobRec) (ts : String) :
    mpiRunnerPoll none = ("RUNNING", "") ∧
    mpiRunnerPoll (some 0) = ("RUN_DONE", "") ∧
    (rc ≠ 0 → mpiRunnerPoll (some rc) = ("RUN_ERROR", toString rc)) ∧
    (j.state = "RUNNING" → rc ≠ 0 →
      mpi_runner_update_jobs j (some rc) ts =
        ⟨"RUN_ERROR", j.state_history ++ history_line ts "RUN_ERROR" (toString rc)⟩) ∧
    (j.state = "RUNNING" →
      mpi_runner_update_jobs j (some 0) ts =
        ⟨"RUN_DONE", j.state_history ++ history_line ts "RUN_DONE" ""⟩) ∧
    (j.state = "RUNNING" →
      timeoutStep ts j =
        ⟨"RUN_TIMEOUT", j.state_history ++ history_line ts "RUN_TIMEOUT" ""⟩) ∧
    (j.state ≠ "RUNNING" → timeoutStep ts j = j) ∧
    worker_report none outLines elapsed = .ask ∧
    worker_report (some 0) outLines elapsed = .doneMsg elapsed ∧
    (rc ≠ 0 → worker_report (some rc) outLines elapsed =
      .errorMsg rc (get_tail 10 outLines)) ∧
    (get_tail 10 outLines =
      String.intercalate "\n" (outLines.drop (outLines.length - 10)) ∧
      (outLines.drop (outLines.length - 10)).length ≤ 10) ∧
    (∀ tail, handle_error_msg rc tail =
      "nonzero return " ++ toString rc ++ ": " ++ tail) := by
  have hmemE : "RUN_ERROR" ∈ STATES := by decide
  have hmemD : "RUN_DONE" ∈ STATES := by decide
  have hmemT : "RUN_TIMEOUT" ∈ STATES := by decide
  refine ⟨rfl, rfl, ?_, ?_, ?_, ?_, ?_, rfl, rfl, ?_, ⟨rfl, ?_⟩, fun _ => rfl⟩
  · intro h; simp [mpiRunnerPoll, h]
  · intro hr h
    have hnk : j.state ≠ "USER_KILLED" := by rw [hr]; decide
    have hne : j.state ≠ "RUN_ERROR" := by rw [hr]; decide
    simp [mpi_runner_update_jobs, mpiRunnerPoll, h, hne, update_state, hmemE, hnk]
  · intro hr
    have hnk : j.state ≠ "USER_KILLED" := by rw [hr]; decide
    have hne : j.state ≠ "RUN_DONE" := by rw [hr]; decide
    simp [mpi_runner_update_jobs, mpiRunnerPoll, hne, update_state, hmemD, hnk]
  · intro hr
    have hnk : j.state ≠ "USER_KILLED" := by rw [hr]; decide
    simp [timeoutStep, hr, update_state, hmemT, hnk]
  · intro hnr; simp [timeoutStep, hnr]
  · intro h; simp [worker_report, h]
  · calc (outLines.drop (outLines.length - 10)).length
        = outLines.length - (outLines.length - 10) := List.length_drop _ _
      _ ≤ 10 := by omega

/-- Witness for C5 at concrete inputs. -/
theorem C5_return_code_semantics_witness :
    mpi_runner_update_jobs ⟨"RUNNING", "h"⟩ (some 7) "t" =
      ⟨"RUN_ERROR", "h" ++ history_line "t" "RUN_ERROR" "7"⟩ ∧
    timeoutStep "t" ⟨"RUNNING", "h"⟩ =
      ⟨"RUN_TIMEOUT", "h" ++ history_line "t" "RUN_TIMEOUT" ""⟩ ∧
    worker_report (some 7) ["a", "b"] none = .errorMsg 7 "a\nb" := by
  have h := C5_return_code_semantics 7 ["a", "b"] none ⟨"RUNNING", "h"⟩ "t"
  refine ⟨h.2.2.2.1 rfl (by decide), h.2.2.2.2.2.1 rfl, ?_⟩
  have hw := h.2.2.2.2.2.2.2.2.2.1 (by decide)
  rw [hw]; decide

/-! ### Ensemble stdout line protocol (`MPIEnsembleRunner.update_jobs`) -/

/-- Tokenizer core for Python's `line.split()`: split on whitespace runs and
drop empty tokens.  `cur` carries the reversed characters of the current
token. -/
def tokenizeWs : List Char → List Char → List String
  | [], cur => if cur.isEmpty then [] else [String.mk cur.reverse]
  | c :: cs, cur =>
    if c.isWhitespace then
      if cur.isEmpty then tokenizeWs cs [] else String.mk cur.reverse :: tokenizeWs cs []
    else tokenizeWs cs (c :: cur)

/-- Python `line.split()`: split on whitespace runs, dropping empties. -/
def lineTokens (line : String) : List String :=
  tokenizeWs line.toList []

/-- Outcome of processing one stdout line in `MPIEnsembleRunner.update_jobs`:
`crash` models the `ValueError` from unpacking `pk, state, *msg = line.split()`
when fewer than two tokens are present; `ignored` is the logged-and-skipped
invalid update; `updateEff` carries the applied update. -/
inductive LineEffect
  | crash
  | ignored
  | updateEff (pk st msg : String)
deriving DecidableEq, Repr

/-- Token-level dispatch of `MPIEnsembleRunner.update_jobs` for one line:
unpack `pk, state, *msg` and apply the update only when `pk` is an owned pk
and `state` a valid state label. -/
def processTokens (ownedPks : List String) : List String → LineEffect
  | pk :: st :: rest =>
    if pk ∈ ownedPks ∧ st ∈ STATES then .updateEff pk st (String.intercalate " " rest)
    else .ignored
  | _ => .crash

/-- One line of `MPIEnsembleRunner.update_jobs`. -/
def process_line (ownedPks : List String) (line : String) : LineEffect :=
  processTokens ownedPks (lineTokens line)

/-- Application of a line's effect to the runner's `jobs_by_pk` table
(pk-keyed job records): only the named pk's record is written. -/
def apply_line (ts : String) (jobs : List (String × JobRec)) (eff : LineEffect) :
    List (String × JobRec) :=
  match eff with
  | .updateEff pk st msg =>
    jobs.map (fun pj =>
      if pj.1 = pk then
        (pj.1, match update_state pj.2 st msg ts false pj.2 with
               | .ok j' => j'
               | .error _ => pj.2)
      else pj)
  | _ => jobs

/-- C10: a task state update is applied for a stdout line only when the
line's first token is the pk of one of the runner's own tasks and its second
token is a valid state label; and processing any line leaves every job record
whose pk the line does not name (in particular every task not owned by the
runner) unchanged. -/
theorem C10_line_protocol (ownedPks : List String) (line : String) (ts : String) :
    (∀ pk st msg, process_line ownedPks line = .updateEff pk st msg →
      pk ∈ ownedPks ∧ st ∈ STATES ∧
      ∃ rest, lineTokens line = pk :: st :: rest ∧ msg = String.intercalate " " rest) ∧
    (∀ jobs : List (String × JobRec), ∀ pj ∈ jobs,
      (∀ pk st msg, process_line ownedPks line = .updateEff pk st msg → pj.1 ≠ pk →
        pj ∈ apply_line ts jobs (process_line ownedPks line)) ∧
      (process_line ownedPks line = .crash ∨ process_line ownedPks line = .ignored →
        apply_line ts jobs (process_line ownedPks line) = jobs)) := by
  constructor
  · intro pk st msg h
    unfold process_line at h
    rcases htok : lineTokens line with _ | ⟨t1, _ | ⟨t2, rest⟩⟩ <;> rw [htok] at h
    · exact absurd h (by simp [processTokens])
    · exact absurd h (by simp [processTokens])
    · simp only [processTokens] at h
      by_cases hc : t1 ∈ ownedPks ∧ t2 ∈ STATES
      · rw [if_pos hc] at h
        cases h
        exact ⟨hc.1, hc.2, rest, by simp [htok], rfl⟩
      · rw [if_neg hc] at h; cases h
  · intro jobs pj hpj
    constructor
    · intro pk st msg h hne
      rw [h]
      unfold apply_line
      exact List.mem_map.2 ⟨pj, hpj, by rw [if_neg hne]⟩
    · intro h
      rcases h with h | h <;> rw [h] <;> rfl

/-- Witness for C10 at concrete inputs. -/
theorem C10_line_protocol_witness :
    ("123" ∈ ["123"] ∧ "RUN_DONE" ∈ STATES ∧
      ∃ rest, lineTokens "123 RUN_DONE ok fine" = "123" :: "RUN_DONE" :: rest ∧
        "ok fine" = String.intercalate " " rest) ∧
    ("456", (⟨"RUNNING", "h"⟩ : JobRec)) ∈
      apply_line "t" [("456", ⟨"RUNNING", "h"⟩)]
        (process_line ["123"] "123 RUN_DONE ok fine") := by
  have h := C10_line_protocol ["123"] "123 RUN_DONE ok fine" "t"
  have heff : process_line ["123"] "123 RUN_DONE ok fine" =
      .updateEff "123" "RUN_DONE" "ok fine" := by decide
  refine ⟨h.1 "123" "RUN_DONE" "ok fine" heff, ?_⟩
  exact (h.2 [("456", ⟨"RUNNING", "h"⟩)] ("456", ⟨"RUNNING", "h"⟩) (by simp)).1
    "123" "RUN_DONE" "ok fine" heff (by decide)

/-! ### Runner Group (`balsamlauncher/runners.py`) -/

/-- A launcher `Worker` (worker.py): identity, node count, max ranks per
node, and the mutable `idle` flag. -/
structure LWorker where
  wid : Nat
  num_nodes : Nat
  max_ranks_per_node : Nat
  idle : Bool
deriving DecidableEq, Repr

/-- The resource-demand fields of a `BalsamJob` that `create_next_runner`
inspects. -/
structure LJob where
  num_nodes : Nat
  ranks_per_node : Nat
deriving DecidableEq, Repr

/-- Property `BalsamJob.num_ranks`: `num_nodes * ranks_per_node`. -/
def numRanks (j : LJob) : Nat := j.num_nodes * j.ranks_per_node

inductive RunnerKind
  | mpi
  | ensemble
deriving DecidableEq, Repr

/-- The runner recorded by `RunnerGroup.create_next_runner`: its class, its
job list, and the ids of its assigned workers. -/
structure RunnerInfo where
  kind : RunnerKind
  jobs : List LJob
  workerIds : List Nat
deriving DecidableEq, Repr

/-- State of a `RunnerGroup`: the active runner list plus the launcher's worker
pool (the group mutates workers' `idle` flags). -/
structure GroupState where
  runners : List RunnerInfo
  workers : List LWorker
deriving DecidableEq, Repr

/-- Exceptions out of `create_next_runner`.  `noAvailableWorkers` is the
`NoAvailableWorkers` defined in exceptions.py.  `nameErrorAtCap` is the
Python `NameError` raised at runners.py:203: the raised name
`ExceededMaxRunners` is undefined there (exceptions.py defines
`ExceededMaxConcurrentRunners`, and nothing else supplies the name), so
hitting the cap aborts with `NameError` rather than the spec's exception.
`nameError` is the `NameError` raised at runners.py:241, where the
undefined name `rpw` is evaluated.  `exceededMaxRunners` is the exception
the spec's policy (§4.4) names; only the spec-modelled
`createNextRunnerSpec` produces it. -/
inductive CreateErr
  | exceededMaxRunners
  | noAvailableWorkers
  | nameError
  | nameErrorAtCap
deriving DecidableEq, Repr

/-- Real ceiling `⌈a / b⌉` on naturals (the source computes
`ceil(a/b/c)` with float division; exact arithmetic is used here). -/
def ceilDivNat (a b : Nat) : Nat := (a + b - 1) / b

/-- Model of `max(mpi_jobs, key=lambda job: job.num_nodes)`: Python `max` keeps the
first maximal element. -/
def maxByNumNodes : List LJob → Option LJob
  | [] => none
  | j :: js => some (js.foldl (fun acc x => if acc.num_nodes < x.num_nodes then x else acc) j)

def defaultWorker : LWorker := ⟨0, 1, 1, true⟩

/-- Tail of `create_next_runner`: `if not jobs: raise NoAvailableWorkers`,
then construct the runner, append it, and clear the `idle` flag of every
assigned worker. -/
def finishCreate (st : GroupState) (jobs : List LJob) (assigned : List LWorker)
    (k : RunnerKind) : Except CreateErr (GroupState × RunnerInfo) :=
  if jobs.isEmpty then .error .noAvailableWorkers
  else
    let info : RunnerInfo := ⟨k, jobs, assigned.map (·.wid)⟩
    .ok (⟨st.runners ++ [info],
          st.workers.map (fun w =>
            if w.wid ∈ info.workerIds then { w with idle := false } else w)⟩, info)

/-- Method `RunnerGroup.create_next_runner` of runners.py.  The cap branch
(`raise ExceededMaxRunners(...)`) evaluates the undefined name
`ExceededMaxRunners` and therefore raises `NameError`, modelled as
`.error .nameErrorAtCap`; either way the call aborts without creating a
runner.  The middle branch (`elif largest_mpi_job and
largest_mpi_job.num_nodes > nserial // rpw`) evaluates the undefined name
`rpw` and therefore raises `NameError` whenever a fitting MPI job exists;
it is modelled as `.error .nameError`. -/
def create_next_runner (maxRunners : Nat) (st : GroupState) (runnable : List LJob) :
    Except CreateErr (GroupState × RunnerInfo) :=
  if st.runners.length = maxRunners then .error .nameErrorAtCap
  else
    let idle_workers := st.workers.filter (·.idle)
    let w0 := st.workers.headD defaultWorker
    let nodes_per_worker := w0.num_nodes
    let rpn := w0.max_ranks_per_node
    let nidle_nodes := idle_workers.length * nodes_per_worker
    let nidle_ranks := nidle_nodes * rpn
    let serial_jobs := runnable.filter (fun j => numRanks j = 1)
    let mpi_jobs := runnable.filter (fun j =>
      (1 < j.num_nodes ∧ j.num_nodes ≤ nidle_nodes) ∨
      (1 = j.num_nodes ∧ j.num_nodes ≤ nidle_nodes ∧ 1 < j.ranks_per_node))
    if serial_jobs.length ≥ nidle_ranks then
      finishCreate st (serial_jobs.take nidle_ranks) idle_workers .ensemble
    else if (maxByNumNodes mpi_jobs).isSome then
      .error .nameError
    else
      finishCreate st serial_jobs
        (idle_workers.take (ceilDivNat serial_jobs.length (rpn * nodes_per_worker)))
        .ensemble

/-- Modelled from the spec: the admission policy of §4.4 as the spec words
it, with the comparison `largest_mpi_job.num_nodes > |serial| / rpn`
(integer division) in place of the undefined name; used to compare the
source against the claim. -/
def createNextRunnerSpec (maxRunners : Nat) (st : GroupState) (runnable : List LJob) :
    Except CreateErr (GroupState × RunnerInfo) :=
  if st.runners.length = maxRunners then .error .exceededMaxRunners
  else
    let idle_workers := st.workers.filter (·.idle)
    let w0 := st.workers.headD defaultWorker
    let nodes_per_worker := w0.num_nodes
    let rpn := w0.max_ranks_per_node
    let nidle_nodes := idle_workers.length * nodes_per_worker
    let nidle_ranks := nidle_nodes * rpn
    let serial_jobs := runnable.filter (fun j => numRanks j = 1)
    let mpi_jobs := runnable.filter (fun j =>
      (1 < j.num_nodes ∧ j.num_nodes ≤ nidle_nodes) ∨
      (1 = j.num_nodes ∧ j.num_nodes ≤ nidle_nodes ∧ 1 < j.ranks_per_node))
    if serial_jobs.length ≥ nidle_ranks then
      finishCreate st (serial_jobs.take nidle_ranks) idle_workers .ensemble
    else
      match maxByNumNodes mpi_jobs with
      | some lj =>
        if lj.num_nodes > serial_jobs.length / rpn then
          finishCreate st [lj] (idle_workers.take (ceilDivNat lj.num_nodes nodes_per_worker)) .mpi
        else
          finishCreate st serial_jobs
            (idle_workers.take (ceilDivNat serial_jobs.length (rpn * nodes_per_worker)))
            .ensemble
      | none =>
        finishCreate st serial_jobs
          (idle_workers.take (ceilDivNat serial_jobs.length (rpn * nodes_per_worker)))
          .ensemble

/-- C2: the branch of `create_next_runner` that the claim describes as
spawning an MPI-single Runner instead evaluates the undefined name `rpw`
and raises `NameError`: with one idle 1-node worker (4 ranks per node) and a
single runnable MPI job (1 node, 2 ranks per node), the source raises while
the spec's policy starts an MPI runner for that job on the idle worker. -/
theorem C2_mpi_branch_name_error :
    create_next_runner 99 ⟨[], [⟨0, 1, 4, true⟩]⟩ [⟨1, 2⟩] = .error .nameError ∧
    createNextRunnerSpec 99 ⟨[], [⟨0, 1, 4, true⟩]⟩ [⟨1, 2⟩] =
      .ok (⟨[⟨.mpi, [⟨1, 2⟩], [0]⟩], [⟨0, 1, 4, false⟩]⟩, ⟨.mpi, [⟨1, 2⟩], [0]⟩) := by
  constructor <;> rfl

/-- A runner as seen by `update_and_remove_finished`: whether its subprocess
has exited (`self.process.poll() is not None`), the post-`update_jobs`
states of its jobs, and its workers. -/
structure RunnerRec where
  finished : Bool
  jobStates : List String
  workerIds : List Nat
deriving DecidableEq, Repr

/-- List `'RUN_DONE RUN_ERROR RUN_TIMEOUT'.split()`. -/
def runTerminalStates : List String := ["RUN_DONE", "RUN_ERROR", "RUN_TIMEOUT"]

/-- Set the `idle` flag back to true on one worker if it belongs to a
finished runner. -/
def setIdleOne (ids : List Nat) (w : LWorker) : LWorker :=
  if w.wid ∈ ids then { w with idle := true } else w

/-- Set the `idle` flag back to true on every worker of a finished runner. -/
def setIdleList (ids : List Nat) (ws : List LWorker) : List LWorker :=
  ws.map (setIdleOne ids)

/-- Method `RunnerGroup.update_and_remove_finished` of runners.py, after the
per-runner `update_jobs` refresh: walk the runner list; a finished runner
with a job outside the run-terminal states raises a fatal `RuntimeError`
(modelled as `.error ()`); otherwise each finished runner is dropped and its
workers are made idle.  Returns the surviving runners, the worker pool, and
the `any_finished` flag. -/
def update_and_remove_finished :
    List RunnerRec → List LWorker → Except Unit (List RunnerRec × List LWorker × Bool)
  | [], ws => .ok ([], ws, false)
  | r :: rs, ws =>
    if r.finished then
      if r.jobStates.all (fun s => s ∈ runTerminalStates) then
        match update_and_remove_finished rs (setIdleList r.workerIds ws) with
        | .ok (rs', ws', _) => .ok (rs', ws', true)
        | .error e => .error e
      else .error ()
    else
      match update_and_remove_finished rs ws with
      | .ok (rs', ws', b) => .ok (r :: rs', ws', b)
      | .error e => .error e

/-- Worker ids of all finished runners, in list order. -/
def finishedWids (rs : List RunnerRec) : List Nat :=
  (rs.filter (·.finished)).foldr (fun r acc => r.workerIds ++ acc) []

theorem setIdleOne_setIdleOne (a b : List Nat) (w : LWorker) :
    setIdleOne a (setIdleOne b w) = setIdleOne (b ++ a) w := by
  unfold setIdleOne
  by_cases hb : w.wid ∈ b <;> by_cases ha : w.wid ∈ a <;> simp [ha, hb]

theorem setIdleList_setIdleList (a b : List Nat) (ws : List LWorker) :
    setIdleList a (setIdleList b ws) = setIdleList (b ++ a) ws := by
  induction ws with
  | nil => rfl
  | cons w rest ih =>
    show setIdleOne a (setIdleOne b w) :: setIdleList a (setIdleList b rest) = _
    rw [setIdleOne_setIdleOne, ih]
    rfl

theorem mem_setIdleList_idle (ids : List Nat) (ws : List LWorker) :
    ∀ w ∈ setIdleList ids ws, w.wid ∈ ids → w.idle = true := by
  intro w hw hid
  rcases List.mem_map.1 hw with ⟨w0, _, rfl⟩
  unfold setIdleOne at hid ⊢
  by_cases h : w0.wid ∈ ids
  · simp [h]
  · rw [if_neg h] at hid
    exact absurd hid h

theorem mem_setIdleList_frame (ids : List Nat) (ws : List LWorker) :
    ∀ w ∈ setIdleList ids ws, w.wid ∉ ids → w ∈ ws := by
  intro w hw hnot
  rcases List.mem_map.1 hw with ⟨w0, hw0, rfl⟩
  unfold setIdleOne at hnot ⊢
  by_cases h : w0.wid ∈ ids
  · rw [if_pos h] at hnot ⊢
    exact absurd h (by simpa using hnot)
  · rw [if_neg h]; exact hw0

theorem update_and_remove_ok (rs : List RunnerRec) (ws : List LWorker)
    (hgood : ∀ r ∈ rs, r.finished = true → ∀ s ∈ r.jobStates, s ∈ runTerminalStates) :
    update_and_remove_finished rs ws =
      .ok (rs.filter (fun r => !r.finished), setIdleList (finishedWids rs) ws,
           rs.any (·.finished)) := by
  induction rs generalizing ws with
  | nil =>
    show Except.ok ([], ws, false) = _
    have : List.map (setIdleOne []) ws = ws := by
      apply List.map_id'
    simp [finishedWids, setIdleList, this]
  | cons r rest ih =>
    have hrest : ∀ r' ∈ rest, r'.finished = true →
        ∀ s ∈ r'.jobStates, s ∈ runTerminalStates :=
      fun r' hm => hgood r' (List.mem_cons_of_mem r hm)
    by_cases hf : r.finished
    · have hall : r.jobStates.all (fun s => s ∈ runTerminalStates) = true := by
        simp only [List.all_eq_true, decide_eq_true_eq]
        exact hgood r (List.mem_cons_self r rest) hf
      have hfw : finishedWids (r :: rest) = r.workerIds ++ finishedWids rest := by
        simp [finishedWids, List.filter_cons, hf]
      show (if r.finished then _ else _) = _
      rw [if_pos hf, hall]
      simp only [if_true]
      rw [ih _ hrest]
      rw [hfw, ← setIdleList_setIdleList]
      simp [List.filter_cons, hf, List.any_cons]
    · have hfb : r.finished = false := Bool.eq_false_iff.2 hf
      have hfw : finishedWids (r :: rest) = finishedWids rest := by
        simp [finishedWids, List.filter_cons, hfb]
      show (if r.finished then _ else _) = _
      rw [if_neg hf]
      rw [ih _ hrest]
      rw [hfw]
      simp [List.filter_cons, hfb, List.any_cons]

theorem update_and_remove_error (rs : List RunnerRec) (ws : List LWorker)
    (hbad : ∃ r ∈ rs, r.finished = true ∧ ∃ s ∈ r.jobStates, s ∉ runTerminalStates) :
    update_and_remove_finished rs ws = .error () := by
  induction rs generalizing ws with
  | nil =>
    rcases hbad with ⟨r, hr, -⟩
    exact absurd hr (List.not_mem_nil r)
  | cons r rest ih =>
    rcases hbad with ⟨r', hr', hfin, s, hs, hsbad⟩
    rcases List.mem_cons.1 hr' with rfl | hmem
    · have hallf : r'.jobStates.all (fun s => s ∈ runTerminalStates) = false := by
        apply Bool.eq_false_iff.2
        simp only [ne_eq, List.all_eq_true, decide_eq_true_eq]
        intro hforall
        exact hsbad (hforall s hs)
      show (if r'.finished then _ else _) = _
      rw [if_pos hfin, hallf]
      rfl
    · have hrec : ∀ ws', update_and_remove_finished rest ws' = .error () :=
        fun ws' => ih ws' ⟨r', hmem, hfin, s, hs, hsbad⟩
      by_cases hf : r.finished
      · by_cases hall : r.jobStates.all (fun s => s ∈ runTerminalStates)
        · show (if r.finished then _ else _) = _
          rw [if_pos hf, hall]
          simp only [if_true]
          rw [hrec]
        · have hallf := Bool.eq_false_iff.2 hall
          show (if r.finished then _ else _) = _
          rw [if_pos hf, hallf]
          rfl
      · show (if r.finished then _ else _) = _
        rw [if_neg hf, hrec]

/-- C6: if some finished runner has a task outside
`{RUN_DONE, RUN_ERROR, RUN_TIMEOUT}` the call raises a fatal consistency
error; otherwise every finished runner is removed from the group and each of
its workers has its `idle` flag set back to true (all other workers keep
their records). -/
theorem C6_consistency_and_reclaim (rs : List RunnerRec) (ws : List LWorker) :
    ((∃ r ∈ rs, r.finished = true ∧ ∃ s ∈ r.jobStates, s ∉ runTerminalStates) →
      update_and_remove_finished rs ws = .error ()) ∧
    ((∀ r ∈ rs, r.finished = true → ∀ s ∈ r.jobStates, s ∈ runTerminalStates) →
      update_and_remove_finished rs ws =
        .ok (rs.filter (fun r => !r.finished), setIdleList (finishedWids rs) ws,
             rs.any (·.finished)) ∧
      (∀ w ∈ setIdleList (finishedWids rs) ws, w.wid ∈ finishedWids rs → w.idle = true) ∧
      (∀ w ∈ setIdleList (finishedWids rs) ws, w.wid ∉ finishedWids rs → w ∈ ws)) :=
  ⟨update_and_remove_error rs ws,
   fun hgood => ⟨update_and_remove_ok rs ws hgood,
                 mem_setIdleList_idle _ _, mem_setIdleList_frame _ _⟩⟩

/-- Witness for C6 at concrete inputs. -/
theorem C6_consistency_and_reclaim_witness :
    update_and_remove_finished
      [⟨true, ["RUN_DONE", "RUNNING"], [0]⟩] [⟨0, 1, 4, false⟩] = .error () ∧
    update_and_remove_finished
      [⟨true, ["RUN_DONE"], [0]⟩, ⟨false, ["RUNNING"], [1]⟩]
      [⟨0, 1, 4, false⟩, ⟨1, 1, 4, false⟩] =
      .ok ([⟨false, ["RUNNING"], [1]⟩], [⟨0, 1, 4, true⟩, ⟨1, 1, 4, false⟩], true) := by
  constructor
  · exact (C6_consistency_and_reclaim _ _).1
      ⟨⟨true, ["RUN_DONE", "RUNNING"], [0]⟩, by simp, rfl, "RUNNING", by simp, by decide⟩
  · have h := ((C6_consistency_and_reclaim
      [⟨true, ["RUN_DONE"], [0]⟩, ⟨false, ["RUNNING"], [1]⟩]
      [⟨0, 1, 4, false⟩, ⟨1, 1, 4, false⟩]).2 (by decide)).1
    rw [h]; rfl

/-- Characterization of a successful `create_next_runner`: the cap test
passed, the assigned workers form a subset of the currently idle workers,
the new runner is appended, and the pool clears `idle` exactly on assigned
worker ids. -/
theorem create_next_runner_ok (maxRunners : Nat) (st : GroupState)
    (runnable : List LJob) (st' : GroupState) (info : RunnerInfo)
    (h : create_next_runner maxRunners st runnable = .ok (st', info)) :
    st.runners.length ≠ maxRunners ∧
    st'.runners = st.runners ++ [info] ∧
    (∀ i ∈ info.workerIds, ∃ w ∈ st.workers.filter (·.idle), w.wid = i) ∧
    st'.workers = st.workers.map (fun w =>
      if w.wid ∈ info.workerIds then { w with idle := false } else w) := by
  have hfin : ∀ (jobs : List LJob) (assigned : List LWorker) (k : RunnerKind),
      (∀ w ∈ assigned, w ∈ st.workers.filter (·.idle)) →
      finishCreate st jobs assigned k = .ok (st', info) →
      st'.runners = st.runners ++ [info] ∧
      (∀ i ∈ info.workerIds, ∃ w ∈ st.workers.filter (·.idle), w.wid = i) ∧
      st'.workers = st.workers.map (fun w =>
        if w.wid ∈ info.workerIds then { w with idle := false } else w) := by
    intro jobs assigned k hsub hok
    unfold finishCreate at hok
    by_cases hemp : jobs.isEmpty
    · rw [if_pos hemp] at hok; cases hok
    · rw [if_neg hemp] at hok
      cases hok
      refine ⟨rfl, ?_, rfl⟩
      intro i hi
      rcases List.mem_map.1 hi with ⟨w, hw, rfl⟩
      exact ⟨w, hsub w hw, rfl⟩
  simp only [create_next_runner] at h
  split at h
  · cases h
  · rename_i hcap
    refine ⟨hcap, ?_⟩
    split at h
    · exact hfin _ _ _ (fun w hw => hw) h
    · split at h
      · cases h
      · exact hfin _ _ _ (fun w hw => List.mem_of_mem_take hw) h

/-- Steps the Runner Group state can take during the launcher's service loop:
a successful `create_next_runner` call, or the removal of a finished runner
by `update_and_remove_finished` (which idles its workers). -/
inductive GStep (maxRunners : Nat) : GroupState → GroupState → Prop
  | create (st : GroupState) (jobs : List LJob) (st' : GroupState) (info : RunnerInfo) :
      create_next_runner maxRunners st jobs = .ok (st', info) → GStep maxRunners st st'
  | finish (st : GroupState) (r : RunnerInfo) : r ∈ st.runners →
      GStep maxRunners st ⟨st.runners.erase r, setIdleList r.workerIds st.workers⟩

/-- Runner Group states reachable from launcher start (no runners, initial
worker pool `ws`). -/
def GReach (maxRunners : Nat) (ws : List LWorker) (st : GroupState) : Prop :=
  Relation.ReflTransGen (GStep maxRunners) ⟨[], ws⟩ st

theorem gstep_cap (maxRunners : Nat) (st st' : GroupState)
    (hstep : GStep maxRunners st st') (hle : st.runners.length ≤ maxRunners) :
    st'.runners.length ≤ maxRunners := by
  cases hstep with
  | create jobs stNew info hok =>
    rcases create_next_runner_ok _ _ _ _ _ hok with ⟨hne, happ, -, -⟩
    have hlen : st'.runners.length = st.runners.length + 1 := by
      rw [happ]; simp
    omega
  | finish r hr =>
    have := List.length_erase_of_mem hr
    simp only [this]
    omega

theorem greach_cap (maxRunners : Nat) (ws : List LWorker) (st : GroupState)
    (h : GReach maxRunners ws st) : st.runners.length ≤ maxRunners := by
  induction h with
  | refl => exact Nat.zero_le _
  | tail _ hstep ih => exact gstep_cap _ _ _ hstep ih

/-- C7: over any sequence of `create_next_runner` and
`update_and_remove_finished` steps, the number of active runners never
exceeds `MAX_CONCURRENT_RUNNERS` (a call at the cap raises instead of
creating a runner — in the source a `NameError`, since the raised name
`ExceededMaxRunners` is undefined), and every worker assigned to a newly
created runner was idle at admission and has its `idle` flag cleared upon
assignment. -/
theorem C7_admission_invariants (maxRunners : Nat) (ws : List LWorker) (st : GroupState) :
    (GReach maxRunners ws st → st.runners.length ≤ maxRunners) ∧
    (st.runners.length = maxRunners → ∀ jobs,
      create_next_runner maxRunners st jobs = .error .nameErrorAtCap) ∧
    (∀ jobs st' info, create_next_runner maxRunners st jobs = .ok (st', info) →
      (∀ i ∈ info.workerIds, ∃ w ∈ st.workers, w.wid = i ∧ w.idle = true) ∧
      (∀ w' ∈ st'.workers, w'.wid ∈ info.workerIds → w'.idle = false)) := by
  refine ⟨greach_cap maxRunners ws st, ?_, ?_⟩
  · intro hcap jobs
    unfold create_next_runner
    rw [if_pos hcap]
  · intro jobs st' info hok
    rcases create_next_runner_ok _ _ _ _ _ hok with ⟨-, -, hidle, hpool⟩
    constructor
    · intro i hi
      rcases hidle i hi with ⟨w, hwf, rfl⟩
      rcases List.mem_filter.1 hwf with ⟨hwm, hwi⟩
      exact ⟨w, hwm, rfl, by simpa using hwi⟩
    · intro w' hw' hmem
      rw [hpool] at hw'
      rcases List.mem_map.1 hw' with ⟨w0, _, rfl⟩
      by_cases h : w0.wid ∈ info.workerIds
      · simp [h]
      · rw [if_neg h] at hmem ⊢
        exact absurd hmem h

/-- Witness for C7 at concrete inputs. -/
theorem C7_admission_invariants_witness :
    (⟨[], [⟨0, 1, 4, true⟩]⟩ : GroupState).runners.length ≤ 1 ∧
    create_next_runner 1 ⟨[⟨.ensemble, [⟨1, 1⟩], [0]⟩], [⟨0, 1, 4, false⟩]⟩ [⟨1, 1⟩] =
      .error .nameErrorAtCap ∧
    (∀ i ∈ ([0] : List Nat),
      ∃ w ∈ [(⟨0, 1, 4, true⟩ : LWorker)], w.wid = i ∧ w.idle = true) := by
  have h1 := (C7_admission_invariants 1 [⟨0, 1, 4, true⟩] ⟨[], [⟨0, 1, 4, true⟩]⟩).1
    Relation.ReflTransGen.refl
  have h2 := (C7_admission_invariants 1 [⟨0, 1, 4, false⟩]
    ⟨[⟨.ensemble, [⟨1, 1⟩], [0]⟩], [⟨0, 1, 4, false⟩]⟩).2.1 rfl [⟨1, 1⟩]
  have hok : create_next_runner 4 ⟨[], [⟨0, 1, 4, true⟩]⟩ [⟨1, 1⟩] =
      .ok (⟨[⟨.ensemble, [⟨1, 1⟩], [0]⟩], [⟨0, 1, 4, false⟩]⟩, ⟨.ensemble, [⟨1, 1⟩], [0]⟩) := by
    rfl
  have h3 := ((C7_admission_invariants 4 [⟨0, 1, 4, true⟩] ⟨[], [⟨0, 1, 4, true⟩]⟩).2.2
    [⟨1, 1⟩] _ _ hok).1
  exact ⟨h1, h2, h3⟩

/-! ### MPI Ensemble master (`balsam/launcher/mpi_ensemble_pull.py`) -/

/-- State of the `ResourceManager` master: `host_names[rank]`, the
`node_occupancy` dict (total function, every host not in `hostNames` is
never looked up), and `job_assignments[rank]`, each entry `None` or a
`(pk, occupancy_share)` pair.  The source stores IEEE-754 doubles in
`node_occupancy`; they are idealized here as exact rationals, so
properties that depend on float rounding are not captured. -/
structure RM where
  hostNames : List String
  nodeOccupancy : String → ℚ
  jobAssignments : List (Option (String × ℚ))

/-- Method `ResourceManager.__init__`: occupancy zero everywhere, no assignments,
except the sentinel `job_assignments[0] = ('master', 1.0)` that keeps
rank 0 from ever receiving work. -/
def RM.init (hostNames : List String) : RM :=
  ⟨hostNames, fun _ => 0,
   (List.replicate hostNames.length (none : Option (String × ℚ))).set 0 (some ("master", 1))⟩

/-- Dict write `occupancy[h] += d` (source: float `+=`/`-=`; exact `ℚ`
addition here, which does not model IEEE rounding). -/
def updOcc (f : String → ℚ) (h : String) (d : ℚ) : String → ℚ :=
  fun x => if x = h then f h + d else f x

/-- Map `host_rank_map[node]`: the ranks whose gathered hostname is `node`,
in increasing order. -/
def hostRanks (rm : RM) (node : String) : List Nat :=
  (List.range rm.hostNames.length).filter (fun i => rm.hostNames.get? i = some node)

/-- The ranks of `node` with no current job assignment. -/
def freeRanksOn (rm : RM) (node : String) : List Nat :=
  (hostRanks rm node).filter (fun i => rm.jobAssignments.get? i = some none)

/-- Hosts `h` with `job_occ + node_occupancy[h] < 1.001` (dict iteration is
modelled by first-occurrence order of the distinct hostnames). -/
def admissibleHosts (rm : RM) (occ : ℚ) : List String :=
  rm.hostNames.dedup.filter (fun n => occ + rm.nodeOccupancy n < 1001 / 1000)

/-- Comparison by node occupancy, the key of the `sorted(...)` call in
`allocate_next_jobs`. -/
def occLe (f : String → ℚ) (a b : String) : Prop := f a ≤ f b

instance (f : String → ℚ) : DecidableRel (occLe f) :=
  fun a b => inferInstanceAs (Decidable (f a ≤ f b))

instance (f : String → ℚ) : IsTotal String (occLe f) :=
  ⟨fun a b => le_total (f a) (f b)⟩

instance (f : String → ℚ) : IsTrans String (occLe f) :=
  ⟨fun _ _ _ hab hbc => le_trans hab hbc⟩

/-- Admissible hosts sorted ascending by occupancy. -/
def sortedHosts (rm : RM) (occ : ℚ) : List String :=
  (admissibleHosts rm occ).insertionSort (occLe rm.nodeOccupancy)

/-- The `(rank, node)` chosen by the generator chain in
`allocate_next_jobs`: the first free rank, scanning hosts in ascending
occupancy order and ranks of each host in ascending order. -/
def selectAssignment (rm : RM) (occ : ℚ) : Option (Nat × String) :=
  (((sortedHosts rm occ).map (fun node => (freeRanksOn rm node).map (fun i => (i, node)))).flatten).head?

/-- The fields of a cached serial `BalsamJob` that `allocate_next_jobs` and
`_send_job` consume. -/
structure CJob where
  pk : String
  name : String
  cuteid : String
  workdir : String
  cmd : String
  envs : List (String × String)
  packing : Nat

/-- Share `job_occ = 1.0 / job.serial_node_packing_count` (a rounded
double in the source, an exact rational here). -/
def jobShare (job : CJob) : ℚ := 1 / (job.packing : ℚ)

/-- The `NEW` message payload assembled by `_send_job`. -/
structure NewMsg where
  workdir : String
  name : String
  cuteid : String
  cmd : String
  envs : List (String × String)
deriving DecidableEq, Repr

/-- Externally visible actions of the master during allocation. -/
inductive MAction
  | sendNew (rank : Nat) (m : NewMsg)
  | postRecv (rank : Nat)
  | markRunning (pk : String) (m : String)
deriving DecidableEq, Repr

/-- Method `ResourceManager._send_job`: isend the `NEW` payload, post the matching
irecv, and mark the task `RUNNING` in the store. -/
def send_job (job : CJob) (rank : Nat) : List MAction :=
  [.sendNew rank ⟨job.workdir, job.name, job.cuteid, job.cmd, job.envs⟩,
   .postRecv rank,
   .markRunning job.pk ("MPI Ensemble rank " ++ toString rank)]

/-- The occupancy and assignment bookkeeping for one placed job. -/
def assignJob (rm : RM) (job : CJob) (rank : Nat) (host : String) : RM :=
  ⟨rm.hostNames,
   updOcc rm.nodeOccupancy host (jobShare job),
   rm.jobAssignments.set rank (some (job.pk, jobShare job))⟩

/-- The allocation loop of `ResourceManager.allocate_next_jobs` over the job
cache: place each job in turn, stopping at the first job with no free rank,
and emit the `_send_job` actions of every placed job. -/
def allocate_next_jobs : RM → List CJob → RM × List MAction
  | rm, [] => (rm, [])
  | rm, job :: rest =>
    match selectAssignment rm (jobShare job) with
    | none => (rm, [])
    | some (rank, host) =>
      let next := allocate_next_jobs (assignJob rm job rank host) rest
      (next.1, send_job job rank ++ next.2)

/-- Method `refresh_job_cache`: the runnable serial cache ordered by
`-serial_node_packing_count` (descending). -/
def refresh_job_cache (jobs : List CJob) : List CJob :=
  jobs.insertionSort (fun a b => b.packing ≤ a.packing)

/-- The bookkeeping of `_handle_ask` (KILL side), `_handle_done` and
`_handle_error`: clear the rank's assignment and release its occupancy
share on the rank's host. -/
def freeRank (rm : RM) (rank : Nat) (occ : ℚ) : RM :=
  ⟨rm.hostNames,
   updOcc rm.nodeOccupancy (rm.hostNames.getD rank "") (-occ),
   rm.jobAssignments.set rank none⟩

/-- The master-state transitions of the ensemble main tick.  `kill`, `done`
and `error` fire for a completed receive from a worker rank, which is
always a rank the master previously sent a job to (never rank 0: receives
are only posted in `_send_job` and `_handle_ask`, both toward worker
ranks). -/
inductive EStep : RM → RM → Prop
  | alloc (rm : RM) (jobs : List CJob) : EStep rm (allocate_next_jobs rm jobs).1
  | kill (rm : RM) (rank : Nat) (pk : String) (occ : ℚ) (h0 : rank ≠ 0)
      (ha : rm.jobAssignments.get? rank = some (some (pk, occ))) :
      EStep rm (freeRank rm rank occ)
  | done (rm : RM) (rank : Nat) (pk : String) (occ : ℚ) (h0 : rank ≠ 0)
      (ha : rm.jobAssignments.get? rank = some (some (pk, occ))) :
      EStep rm (freeRank rm rank occ)
  | error (rm : RM) (rank : Nat) (pk : String) (occ : ℚ) (h0 : rank ≠ 0)
      (ha : rm.jobAssignments.get? rank = some (some (pk, occ))) :
      EStep rm (freeRank rm rank occ)

/-- Master states reachable from `ResourceManager.__init__`. -/
def EReach (hostNames : List String) (rm : RM) : Prop :=
  Relation.ReflTransGen EStep (RM.init hostNames) rm

/-- The occupancy share of one assignment entry. -/
def shareOf : Option (String × ℚ) → ℚ
  | some pr => pr.2
  | none => 0

/-- Sum of the occupancy shares of the non-None assignment entries whose
rank's hostname is `h`, pairing `hosts` and `assigns` positionally. -/
def sumShares (hosts : List String) (assigns : List (Option (String × ℚ))) (h : String) : ℚ :=
  match hosts, assigns with
  | hn :: hs, a :: rest => (if hn = h then shareOf a else 0) + sumShares hs rest h
  | _, _ => 0

theorem head?_pairwise {α : Type} {R : α → α → Prop} {l : List α} {x : α}
    (hp : l.Pairwise R) (hx : l.head? = some x) : ∀ y ∈ l, x = y ∨ R x y := by
  cases l with
  | nil => cases hx
  | cons a rest =>
    cases hx
    intro y hy
    rcases List.mem_cons.1 hy with rfl | hmem
    · exact Or.inl rfl
    · exact Or.inr ((List.pairwise_cons.1 hp).1 y hmem)

theorem flatten_head {α β : Type} {R : α → α → Prop} (f : α → List β) :
    ∀ (L : List α), L.Pairwise R → ∀ b, ((L.map f).flatten).head? = some b →
      ∃ a ∈ L, (f a).head? = some b ∧ ∀ a' ∈ L, f a' ≠ [] → a = a' ∨ R a a' := by
  intro L
  induction L with
  | nil => intro _ b hb; cases hb
  | cons a rest ih =>
    intro hp b hb
    rcases he : f a with _ | ⟨b0, bs⟩
    · rw [List.map_cons, List.flatten_cons, he, List.nil_append] at hb
      rcases ih (List.pairwise_cons.1 hp).2 b hb with ⟨a', ha', hh, hmin⟩
      refine ⟨a', List.mem_cons_of_mem a ha', hh, ?_⟩
      intro a'' ha'' hne
      rcases List.mem_cons.1 ha'' with rfl | hmem
      · exact absurd he hne
      · exact hmin a'' hmem hne
    · rw [List.map_cons, List.flatten_cons, he, List.cons_append] at hb
      cases hb
      refine ⟨a, List.mem_cons_self a rest, by rw [he]; rfl, ?_⟩
      intro a' ha' _
      rcases List.mem_cons.1 ha' with rfl | hmem
      · exact Or.inl rfl
      · exact Or.inr ((List.pairwise_cons.1 hp).1 a' hmem)

theorem freeRanksOn_pairwise (rm : RM) (node : String) :
    (freeRanksOn rm node).Pairwise (· < ·) := by
  have h1 : (List.range rm.hostNames.length).Pairwise (· < ·) := List.pairwise_lt_range _
  exact (h1.filter _).filter _

theorem mem_freeRanksOn (rm : RM) (node : String) (i : Nat) (h : i ∈ freeRanksOn rm node) :
    rm.hostNames.get? i = some node ∧ rm.jobAssignments.get? i = some none := by
  rcases List.mem_filter.1 h with ⟨hhr, hfree⟩
  rcases List.mem_filter.1 hhr with ⟨-, hhost⟩
  exact ⟨by simpa using hhost, by simpa using hfree⟩

/-- Everything the generator chain in `allocate_next_jobs` guarantees about
a successful selection. -/
theorem selectAssignment_spec (rm : RM) (occ : ℚ) (rank : Nat) (host : String)
    (h : selectAssignment rm occ = some (rank, host)) :
    host ∈ admissibleHosts rm occ ∧
    rm.hostNames.get? rank = some host ∧
    rm.jobAssignments.get? rank = some none ∧
    (∀ i ∈ freeRanksOn rm host, rank ≤ i) ∧
    (∀ n ∈ admissibleHosts rm occ, freeRanksOn rm n ≠ [] →
      rm.nodeOccupancy host ≤ rm.nodeOccupancy n) := by
  unfold selectAssignment at h
  have hsorted : (sortedHosts rm occ).Pairwise (occLe rm.nodeOccupancy) :=
    List.sorted_insertionSort (occLe rm.nodeOccupancy) (admissibleHosts rm occ)
  rcases flatten_head _ _ hsorted _ h with ⟨a, haL, hhead, hmin⟩
  have hmemAdm : ∀ x, x ∈ sortedHosts rm occ ↔ x ∈ admissibleHosts rm occ := by
    intro x
    exact (List.perm_insertionSort (occLe rm.nodeOccupancy) (admissibleHosts rm occ)).mem_iff
  rcases hfr : freeRanksOn rm a with _ | ⟨r0, rs⟩
  · rw [hfr] at hhead
    cases hhead
  · rw [hfr] at hhead
    simp only [List.map_cons, List.head?_cons, Option.some_inj, Prod.mk.injEq] at hhead
    rcases hhead with ⟨rfl, rfl⟩
    have hhead' : (freeRanksOn rm a).head? = some r0 := by rw [hfr]; rfl
    have hrankmem : r0 ∈ freeRanksOn rm a := by
      rw [hfr]; exact List.mem_cons_self _ _
    rcases mem_freeRanksOn _ _ _ hrankmem with ⟨hhost, hfree⟩
    refine ⟨(hmemAdm a).1 haL, hhost, hfree, ?_, ?_⟩
    · intro i hi
      rcases head?_pairwise (freeRanksOn_pairwise rm a) hhead' i hi with rfl | hlt
      · exact le_refl _
      · exact Nat.le_of_lt hlt
    · intro n hn hne
      have hnL : n ∈ sortedHosts rm occ := (hmemAdm n).2 hn
      have hfne : (freeRanksOn rm n).map (fun i => (i, n)) ≠ [] := by
        intro hnil
        exact hne (List.map_eq_nil_iff.1 hnil)
      rcases hmin n hnL hfne with rfl | hle
      · exact le_refl _
      · exact hle

/-- Descending order on `serial_node_packing_count`, the key of
`order_by('-serial_node_packing_count')`. -/
def packGe (a b : CJob) : Prop := b.packing ≤ a.packing

instance : DecidableRel packGe := fun a b => inferInstanceAs (Decidable (b.packing ≤ a.packing))

instance : IsTotal CJob packGe := ⟨fun a b => le_total b.packing a.packing⟩

instance : IsTrans CJob packGe := ⟨fun _ _ _ hab hbc => le_trans hbc hab⟩

/-- C4: the allocation pass of the ensemble master.  The cache is considered
largest packing count first; a job is placed on the least-loaded host whose
occupancy plus the job's share stays below 1.001 among hosts with an idle
rank, on the lowest-numbered idle rank of that host; a placed job has its
occupancy and assignment recorded and generates exactly the `NEW` send (with
workdir, name, cuteid, cmd and envs), the matching `irecv`, and the
`RUNNING` store write; and the scan stops at the first job that cannot be
assigned. -/
theorem C4_allocate_next_jobs (rm : RM) (job : CJob) (rest : List CJob)
    (rank : Nat) (host : String) (jobs : List CJob) :
    (refresh_job_cache jobs).Sorted packGe ∧
    (selectAssignment rm (jobShare job) = none →
      allocate_next_jobs rm (job :: rest) = (rm, [])) ∧
    (selectAssignment rm (jobShare job) = some (rank, host) →
      allocate_next_jobs rm (job :: rest) =
        ((allocate_next_jobs (assignJob rm job rank host) rest).1,
         send_job job rank ++ (allocate_next_jobs (assignJob rm job rank host) rest).2) ∧
      (assignJob rm job rank host).nodeOccupancy host =
        rm.nodeOccupancy host + jobShare job ∧
      (assignJob rm job rank host).jobAssignments.get? rank =
        some (some (job.pk, jobShare job)) ∧
      send_job job rank =
        [.sendNew rank ⟨job.workdir, job.name, job.cuteid, job.cmd, job.envs⟩,
         .postRecv rank,
         .markRunning job.pk ("MPI Ensemble rank " ++ toString rank)] ∧
      jobShare job + rm.nodeOccupancy host < 1001 / 1000 ∧
      rm.hostNames.get? rank = some host ∧
      rm.jobAssignments.get? rank = some none ∧
      (∀ i ∈ freeRanksOn rm host, rank ≤ i) ∧
      (∀ n ∈ admissibleHosts rm (jobShare job), freeRanksOn rm n ≠ [] →
        rm.nodeOccupancy host ≤ rm.nodeOccupancy n)) := by
  refine ⟨List.sorted_insertionSort packGe jobs, ?_, ?_⟩
  · intro hnone
    unfold allocate_next_jobs
    rw [hnone]
  · intro hsome
    rcases selectAssignment_spec _ _ _ _ hsome with ⟨hadm, hhost, hfree, hmin, hleast⟩
    have hadm' : jobShare job + rm.nodeOccupancy host < 1001 / 1000 := by
      rcases List.mem_filter.1 hadm with ⟨-, hcond⟩
      simpa using hcond
    refine ⟨?_, ?_, ?_, rfl, hadm', hhost, hfree, hmin, hleast⟩
    · show (match selectAssignment rm (jobShare job) with
        | none => (rm, [])
        | some (rank, host) =>
          let next := allocate_next_jobs (assignJob rm job rank host) rest
          (next.1, send_job job rank ++ next.2)) = _
      rw [hsome]
    · unfold assignJob updOcc
      simp
    · unfold assignJob
      show (rm.jobAssignments.set rank (some (job.pk, jobShare job))).get? rank = _
      rw [List.get?_set_eq, hfree]
      rfl

/-- Witness for C4 at concrete inputs: one host "h" with two ranks, rank 0
blocked by the master sentinel; a half-node job lands on rank 1 of "h". -/
theorem C4_allocate_next_jobs_witness :
    (selectAssignment (RM.init ["h", "h"]) (jobShare ⟨"p", "n", "c", "w", "cmd", [], 2⟩) =
      some (1, "h")) ∧
    allocate_next_jobs (RM.init ["h", "h"]) [⟨"p", "n", "c", "w", "cmd", [], 2⟩] =
      ((allocate_next_jobs
          (assignJob (RM.init ["h", "h"]) ⟨"p", "n", "c", "w", "cmd", [], 2⟩ 1 "h") []).1,
       send_job ⟨"p", "n", "c", "w", "cmd", [], 2⟩ 1 ++
        (allocate_next_jobs
          (assignJob (RM.init ["h", "h"]) ⟨"p", "n", "c", "w", "cmd", [], 2⟩ 1 "h") []).2) ∧
    (RM.init ["h", "h"]).hostNames.get? 1 = some "h" ∧
    (RM.init ["h", "h"]).jobAssignments.get? 1 = some none := by
  have hsel : selectAssignment (RM.init ["h", "h"]) (jobShare ⟨"p", "n", "c", "w", "cmd", [], 2⟩) =
      some (1, "h") := by
    show (((sortedHosts _ _).map _).flatten).head? = _
    norm_num [sortedHosts, admissibleHosts, RM.init, freeRanksOn, hostRanks, jobShare,
      List.dedup, List.filter, List.range, List.insertionSort, List.orderedInsert]
    rfl
  have h := C4_allocate_next_jobs (RM.init ["h", "h"]) ⟨"p", "n", "c", "w", "cmd", [], 2⟩ []
    1 "h" []
  rcases (h.2.2 hsel) with ⟨halloc, -, -, -, -, hhost, hfree, -, -⟩
  exact ⟨hsel, halloc, hhost, hfree⟩

/-- The claim's occupancy aggregate: all ranks, including the master
sentinel at rank 0. -/
def assignedSumAll (rm : RM) (h : String) : ℚ :=
  sumShares rm.hostNames rm.jobAssignments h

/-- The code's occupancy aggregate: worker ranks only (rank `0` carries the
`('master', 1.0)` sentinel that is never reflected in `node_occupancy`). -/
def assignedSum (rm : RM) (h : String) : ℚ :=
  sumShares (rm.hostNames.drop 1) (rm.jobAssignments.drop 1) h

/-- The inductive invariant of the master bookkeeping: parallel list
lengths, the rank-0 sentinel always present, and occupancy equal to the
assigned share sum over worker ranks. -/
def EInv (rm : RM) : Prop :=
  rm.hostNames.length = rm.jobAssignments.length ∧
  rm.jobAssignments.get? 0 ≠ some none ∧
  ∀ h, rm.nodeOccupancy h = assignedSum rm h

theorem get?_drop_one {α : Type} (l : List α) (k : Nat) :
    (l.drop 1).get? k = l.get? (k + 1) := by
  cases l <;> rfl

theorem drop_one_set {α : Type} (l : List α) (k : Nat) (v : α) :
    (l.set (k + 1) v).drop 1 = (l.drop 1).set k v := by
  cases l <;> rfl

theorem sumShares_replicate (hosts : List String) (k : Nat) (h : String) :
    sumShares hosts (List.replicate k (none : Option (String × ℚ))) h = 0 := by
  induction hosts generalizing k with
  | nil => rfl
  | cons hn hs ih =>
    cases k with
    | zero => rfl
    | succ k =>
      show (if hn = h then shareOf none else 0) + sumShares hs (List.replicate k none) h = 0
      rw [ih k]
      by_cases hh : hn = h <;> simp [hh, shareOf]

theorem sumShares_set (hosts : List String) :
    ∀ (assigns : List (Option (String × ℚ))) (r : Nat) (aOld a : Option (String × ℚ))
      (h : String), assigns.get? r = some aOld →
      sumShares hosts (assigns.set r a) h =
        sumShares hosts assigns h +
          (if hosts.get? r = some h then shareOf a - shareOf aOld else 0) := by
  induction hosts with
  | nil =>
    intro assigns r aOld a h _
    show (0 : ℚ) = 0 + _
    simp
  | cons hn hs ih =>
    intro assigns r aOld a h hget
    cases assigns with
    | nil => cases hget
    | cons a0 arest =>
      cases r with
      | zero =>
        cases hget
        show (if hn = h then shareOf a else 0) + sumShares hs arest h = _
        by_cases hh : hn = h <;> simp [hh, sumShares] <;> ring
      | succ k =>
        have hget' : arest.get? k = some aOld := hget
        show (if hn = h then shareOf a0 else 0) + sumShares hs (arest.set k a) h = _
        rw [ih arest k aOld a h hget']
        show _ = (if hn = h then shareOf a0 else 0) + sumShares hs arest h +
          (if hs.get? k = some h then shareOf a - shareOf aOld else 0)
        ring

theorem einv_init (hostNames : List String) : EInv (RM.init hostNames) := by
  refine ⟨?_, ?_, ?_⟩
  · simp [RM.init]
  · cases hostNames with
    | nil => simp [RM.init]
    | cons hn hs =>
      show ((none :: List.replicate hs.length none).set 0 (some ("master", 1))).get? 0 ≠ _
      simp
  · intro h
    show (0 : ℚ) = assignedSum (RM.init hostNames) h
    cases hostNames with
    | nil => rfl
    | cons hn hs =>
      show (0 : ℚ) = sumShares (hs)
        (((none :: List.replicate hs.length none).set 0 (some ("master", 1))).drop 1) h
      show (0 : ℚ) = sumShares hs (List.replicate hs.length none) h
      rw [sumShares_replicate]

theorem einv_assignJob (rm : RM) (job : CJob) (rank : Nat) (host : String)
    (hinv : EInv rm) (hhost : rm.hostNames.get? rank = some host)
    (hfree : rm.jobAssignments.get? rank = some none) :
    EInv (assignJob rm job rank host) := by
  rcases hinv with ⟨hlen, hzero, hocc⟩
  have hrank0 : rank ≠ 0 := by
    intro h0
    rw [h0] at hfree
    exact hzero hfree
  rcases Nat.exists_eq_succ_of_ne_zero hrank0 with ⟨k, rfl⟩
  refine ⟨by simp [assignJob, hlen], ?_, ?_⟩
  · show (rm.jobAssignments.set (k + 1) _).get? 0 ≠ some none
    rw [List.get?_set_ne _ _ (by omega)]
    exact hzero
  · intro h
    show updOcc rm.nodeOccupancy host (jobShare job) h =
      sumShares (rm.hostNames.drop 1)
        ((rm.jobAssignments.set (k + 1) (some (job.pk, jobShare job))).drop 1) h
    rw [drop_one_set]
    have hget' : (rm.jobAssignments.drop 1).get? k = some none := by
      rw [get?_drop_one]; exact hfree
    rw [sumShares_set _ _ _ _ _ _ hget']
    have hcond : (rm.hostNames.drop 1).get? k = rm.hostNames.get? (k + 1) :=
      get?_drop_one _ _
    unfold updOcc
    by_cases hh : h = host
    · subst hh
      rw [if_pos rfl, hcond, hhost, if_pos rfl]
      rw [hocc h]
      show _ = assignedSum rm h + (jobShare job - shareOf none)
      simp [shareOf, assignedSum]
    · rw [if_neg hh, hcond, hhost]
      have hne : ¬ (some host = some h) := by
        intro hc
        exact hh (Option.some_inj.1 hc).symm
      rw [if_neg hne, hocc h]
      show assignedSum rm h = sumShares (rm.hostNames.drop 1) (rm.jobAssignments.drop 1) h + 0
      simp [assignedSum]

theorem lt_length_of_some {α : Type} {l : List α} {n : Nat} {a : α}
    (h : l.get? n = some a) : n < l.length := by
  induction l generalizing n with
  | nil => cases h
  | cons x t ih =>
    cases n with
    | zero => simp
    | succ m =>
      have hm : t.get? m = some a := h
      simpa using Nat.succ_lt_succ (ih hm)

theorem einv_freeRank (rm : RM) (rank : Nat) (occ : ℚ) (pk : String)
    (hinv : EInv rm) (h0 : rank ≠ 0)
    (ha : rm.jobAssignments.get? rank = some (some (pk, occ))) :
    EInv (freeRank rm rank occ) := by
  rcases hinv with ⟨hlen, hzero, hocc⟩
  rcases Nat.exists_eq_succ_of_ne_zero h0 with ⟨k, rfl⟩
  have hlt : k + 1 < rm.jobAssignments.length := lt_length_of_some ha
  have hlt' : k + 1 < rm.hostNames.length := by rw [hlen]; exact hlt
  have hhost : rm.hostNames.get? (k + 1) = some (rm.hostNames.get ⟨k + 1, hlt'⟩) :=
    List.get?_eq_get hlt'
  have hgetD : rm.hostNames.getD (k + 1) "" = rm.hostNames.get ⟨k + 1, hlt'⟩ := by
    rw [List.getD_eq_getD_get?, hhost]
    rfl
  refine ⟨by simp [freeRank, hlen], ?_, ?_⟩
  · show (rm.jobAssignments.set (k + 1) none).get? 0 ≠ some none
    rw [List.get?_set_ne _ _ (by omega)]
    exact hzero
  · intro h
    show updOcc rm.nodeOccupancy (rm.hostNames.getD (k + 1) "") (-occ) h =
      sumShares (rm.hostNames.drop 1) ((rm.jobAssignments.set (k + 1) none).drop 1) h
    rw [drop_one_set]
    have hget' : (rm.jobAssignments.drop 1).get? k = some (some (pk, occ)) := by
      rw [get?_drop_one]; exact ha
    rw [sumShares_set _ _ _ _ _ _ hget']
    have hcond : (rm.hostNames.drop 1).get? k = rm.hostNames.get? (k + 1) :=
      get?_drop_one _ _
    unfold updOcc
    rw [hgetD]
    by_cases hh : h = rm.hostNames.get ⟨k + 1, hlt'⟩
    · rw [hh, if_pos rfl, hcond, hhost, if_pos rfl,
        hocc (rm.hostNames.get ⟨k + 1, hlt'⟩)]
      simp only [assignedSum, shareOf]
      ring
    · rw [if_neg hh, hcond, hhost]
      have hne : ¬ ((some (rm.hostNames.get ⟨k + 1, hlt'⟩) :
          Option String) = some h) := by
        intro hc
        exact hh (Option.some_inj.1 hc).symm
      rw [if_neg hne, hocc h]
      show assignedSum rm h = sumShares (rm.hostNames.drop 1) (rm.jobAssignments.drop 1) h + 0
      simp [assignedSum]

theorem einv_allocate (jobs : List CJob) :
    ∀ rm : RM, EInv rm → EInv (allocate_next_jobs rm jobs).1 := by
  induction jobs with
  | nil => intro rm h; exact h
  | cons job rest ih =>
    intro rm h
    unfold allocate_next_jobs
    rcases hsel : selectAssignment rm (jobShare job) with _ | ⟨rank, host⟩
    · exact h
    · rcases selectAssignment_spec _ _ _ _ hsel with ⟨-, hhost, hfree, -, -⟩
      show EInv (allocate_next_jobs (assignJob rm job rank host) rest).1
      exact ih _ (einv_assignJob _ _ _ _ h hhost hfree)

theorem einv_step (rm rm' : RM) (hstep : EStep rm rm') (h : EInv rm) : EInv rm' := by
  cases hstep with
  | alloc jobs => exact einv_allocate jobs rm h
  | kill rank pk occ h0 ha => exact einv_freeRank _ _ _ _ h h0 ha
  | done rank pk occ h0 ha => exact einv_freeRank _ _ _ _ h h0 ha
  | error rank pk occ h0 ha => exact einv_freeRank _ _ _ _ h h0 ha

theorem einv_reach (hostNames : List String) (rm : RM) (h : EReach hostNames rm) :
    EInv rm := by
  induction h with
  | refl => exact einv_init hostNames
  | tail _ hstep ih => exact einv_step _ _ hstep ih

/-!
Remark on the occupancy aggregate.  `einv_reach` shows that the master's
bookkeeping *algorithm*, run in exact arithmetic, keeps `node_occupancy`
equal to the assigned-share sum over worker ranks (the rank-0
`('master', 1.0)` sentinel is a non-None entry that `node_occupancy`
never reflects).  The source, however, accumulates `node_occupancy` by
IEEE-754 double `+=`/`-=` of `1.0/serial_node_packing_count` shares, and
double rounding breaks exact equality on reachable states (for instance,
shares 0.1 and 0.2 placed on one host followed by freeing the 0.1 job
leave `(0.1 + 0.2) - 0.1 = 0.20000000000000004 ≠ 0.2`), so no exact
occupancy-equality invariant is faithful to the program itself.
-/

/-! ### Environment construction (`BalsamJob.get_envs`, models.py) -/

/-- Python `str.split(sep)` for a one-character separator (keeps empty
pieces), structurally recursive for computability. -/
def splitCharAux (c : Char) : List Char → List Char → List String
  | [], cur => [String.mk cur.reverse]
  | x :: xs, cur =>
    if x = c then String.mk cur.reverse :: splitCharAux c xs []
    else splitCharAux c xs (x :: cur)

def splitOnChar (c : Char) (s : String) : List String :=
  splitCharAux c s.toList []

/-- Does `hay` start with `needle`? -/
def listStartsWith : List Char → List Char → Bool
  | _, [] => true
  | [], _ :: _ => false
  | x :: xs, y :: ys => if x = y then listStartsWith xs ys else false

/-- Python `needle in hay` substring containment on character lists. -/
def listContainsSub : List Char → List Char → Bool
  | [], needle => needle.isEmpty
  | x :: rest, needle =>
    if listStartsWith (x :: rest) needle then true else listContainsSub rest needle

/-- Python `keyword in var` on strings. -/
def strContainsSub (hay needle : String) : Bool :=
  listContainsSub hay.toList needle.toList

/-- First-match lookup in a Python-dict model (association list with unique
keys as built by the code). -/
def envLookup (d : List (String × String)) (k : String) : Option String :=
  (d.find? (fun kv => kv.1 = k)).map (·.2)

def dictHasKey (d : List (String × String)) (k : String) : Bool :=
  d.any (fun kv => kv.1 = k)

/-- Python `dict[k] = v`: replace in place if present, else append. -/
def dictUpdate1 (d : List (String × String)) (k v : String) : List (String × String) :=
  if dictHasKey d k then d.map (fun kv => if kv.1 = k then (k, v) else kv)
  else d ++ [(k, v)]

/-- Python `dict.update(new)`. -/
def dictUpdate (d new : List (String × String)) : List (String × String) :=
  new.foldl (fun acc kv => dictUpdate1 acc kv.1 kv.2) d

/-- Last-match lookup: the binding that survives a `dict.update` with `d`. -/
def envLookupLast (d : List (String × String)) (k : String) : Option String :=
  envLookup d.reverse k

/-- Left-biased choice. -/
def optOr {α : Type} : Option α → Option α → Option α
  | some a, _ => some a
  | none, b => b

/-- Method `BalsamJob.parse_envstring`: colon-separated `K=V` pairs; an entry that
does not split on `=` into exactly two pieces raises `ValueError` in the
dict-comprehension unpacking (modelled as `none`). -/
def parse_envstring (s : String) : Option (List (String × String)) :=
  let entries := (splitOnChar ':' s).map (splitOnChar '=')
  if entries.all (fun e => e.length = 2) then
    some (entries.map (fun e => (e.headD "", (e.drop 1).headD "")))
  else none

def keywordList : List String := ["BALSAM", "DJANGO", "PYTHON"]

/-- The initial filter of `get_envs`: process environment variables whose
name contains BALSAM, DJANGO or PYTHON. -/
def filterEnviron (environ : List (String × String)) : List (String × String) :=
  environ.filter (fun kv => keywordList.any (fun kw => strContainsSub kv.1 kw))

/-- The `BalsamJob` fields that `get_envs` reads. -/
structure JobEnvInput where
  pk : String
  parents : String
  environ_vars : String
  threads_per_rank : Nat

/-- The `balsam_envs` dict built by `get_envs` (insertion order). -/
def balsamEnvList (job : JobEnvInput) (timeoutFlag errorFlag : Bool) :
    List (String × String) :=
  [("BALSAM_JOB_ID", job.pk), ("BALSAM_PARENT_IDS", job.parents)]
  ++ (if 1 < job.threads_per_rank then
        [("OMP_NUM_THREADS", toString job.threads_per_rank)] else [])
  ++ (if timeoutFlag then [("BALSAM_JOB_TIMEOUT", "TRUE")] else [])
  ++ (if errorFlag then [("BALSAM_JOB_ERROR", "TRUE")] else [])

/-- Method `BalsamJob.get_envs` of models.py: keyword-filtered process environment,
overlaid by the parsed per-task `environ_vars` (skipped when empty), then by
the `balsam_envs` dict. -/
def get_envs (environ : List (String × String)) (job : JobEnvInput)
    (timeoutFlag errorFlag : Bool) : Option (List (String × String)) :=
  match (if job.environ_vars = "" then some [] else parse_envstring job.environ_vars) with
  | none => none
  | some jv =>
    some (dictUpdate (dictUpdate (filterEnviron environ) jv)
      (balsamEnvList job timeoutFlag errorFlag))

theorem find?_map_update (d : List (String × String)) (k0 v0 k : String) :
    (d.map (fun kv => if kv.1 = k0 then (k0, v0) else kv)).find? (fun kv => kv.1 = k) =
      if k = k0 then (if dictHasKey d k0 then some (k0, v0) else none)
      else d.find? (fun kv => kv.1 = k) := by
  induction d with
  | nil => by_cases hk : k = k0 <;> simp [hk, dictHasKey]
  | cons kv rest ih =>
    by_cases hh : kv.1 = k0
    · rw [List.map_cons, if_pos hh]
      by_cases hk : k = k0
      · subst hk
        have hhk : dictHasKey (kv :: rest) k = true := by
          simp [dictHasKey, List.any_cons, hh]
        rw [if_pos rfl, if_pos hhk]
        simp [List.find?]
      · have h1 : ¬ ((k0, v0).1 = k) := fun hc => hk (by simp at hc; exact hc.symm)
        have h2 : ¬ (kv.1 = k) := by rw [hh]; exact fun hc => hk hc.symm
        rw [List.find?_cons_of_neg _ (by simpa using h1), ih, if_neg hk,
          List.find?_cons_of_neg _ (by simpa using h2), if_neg hk]
    · rw [List.map_cons, if_neg hh]
      by_cases hkv : kv.1 = k
      · rw [List.find?_cons_of_pos _ (by simpa using hkv),
          List.find?_cons_of_pos _ (by simpa using hkv)]
        by_cases hk : k = k0
        · exact absurd (hkv.trans hk) hh
        · rw [if_neg hk]
      · rw [List.find?_cons_of_neg _ (by simpa using hkv),
          List.find?_cons_of_neg _ (by simpa using hkv), ih]
        by_cases hk : k = k0
        · rw [if_pos hk, if_pos hk]
          have hd : dictHasKey (kv :: rest) k0 = dictHasKey rest k0 := by
            simp [dictHasKey, List.any_cons, hh]
          rw [hd]
        · rw [if_neg hk, if_neg hk]

theorem envLookup_dictUpdate1 (d : List (String × String)) (k0 v0 k : String) :
    envLookup (dictUpdate1 d k0 v0) k =
      if k = k0 then some v0 else envLookup d k := by
  unfold dictUpdate1 envLookup
  by_cases hhk : dictHasKey d k0
  · rw [if_pos hhk, find?_map_update]
    by_cases hk : k = k0
    · rw [if_pos hk, if_pos hk, if_pos hhk]
      rfl
    · rw [if_neg hk, if_neg hk]
  · rw [if_neg hhk, List.find?_append]
    by_cases hk : k = k0
    · subst hk
      have hnone : d.find? (fun kv => kv.1 = k) = none := by
        rw [List.find?_eq_none]
        intro kv hkv hp
        exact hhk (by
          simp only [dictHasKey, List.any_eq_true]
          exact ⟨kv, hkv, hp⟩)
      rw [hnone, if_pos rfl]
      simp [List.find?]
    · rw [if_neg hk]
      have h1 : ([(k0, v0)] : List (String × String)).find? (fun kv => kv.1 = k) = none := by
        rw [List.find?_eq_none]
        intro kv hkv
        rcases List.mem_singleton.1 hkv with rfl
        simp only [decide_eq_true_eq]
        exact fun hc => hk hc.symm
      rw [h1]
      cases d.find? (fun kv => kv.1 = k) <;> rfl

theorem envLookup_dictUpdate (new : List (String × String)) :
    ∀ (d : List (String × String)) (k : String),
      envLookup (dictUpdate d new) k = optOr (envLookupLast new k) (envLookup d k) := by
  induction new with
  | nil =>
    intro d k
    simp [dictUpdate, envLookupLast, envLookup, optOr]
  | cons kv rest ih =>
    intro d k
    have hl : dictUpdate d (kv :: rest) = dictUpdate (dictUpdate1 d kv.1 kv.2) rest := rfl
    rw [hl, ih, envLookup_dictUpdate1]
    have hr : envLookupLast (kv :: rest) k =
        optOr (envLookupLast rest k) (if k = kv.1 then some kv.2 else none) := by
      unfold envLookupLast envLookup
      rw [List.reverse_cons, List.find?_append]
      have h1 : ([kv] : List (String × String)).find? (fun p => p.1 = k) =
          if k = kv.1 then some kv else none := by
        by_cases hk : k = kv.1
        · rw [if_pos hk]
          exact List.find?_cons_of_pos _ (by simpa using hk.symm)
        · rw [if_neg hk]
          apply List.find?_cons_of_neg
          simpa using fun hc => hk hc.symm
      rw [h1]
      by_cases hk : k = kv.1 <;>
        cases hfind : rest.reverse.find? (fun p => p.1 = k) <;>
          simp [hk, optOr, hfind]
    rw [hr]
    by_cases hk : k = kv.1 <;>
      cases hlast : envLookupLast rest k <;>
        simp [hk, optOr]

/-- C8: the environment returned by `get_envs` equals the keyword-filtered
(BALSAM/DJANGO/PYTHON) process environment, overlaid by the task's parsed
`environ_vars`, overlaid by the injected balsam variables: `BALSAM_JOB_ID`
and `BALSAM_PARENT_IDS` always, `OMP_NUM_THREADS` exactly when
`threads_per_rank > 1`, `BALSAM_JOB_TIMEOUT=TRUE` exactly under the timeout
flag and `BALSAM_JOB_ERROR=TRUE` exactly under the error flag. -/
theorem C8_get_envs_overlay (environ : List (String × String)) (job : JobEnvInput)
    (t e : Bool) (jv : List (String × String))
    (hjv : (if job.environ_vars = "" then some [] else parse_envstring job.environ_vars) =
      some jv) :
    get_envs environ job t e =
      some (dictUpdate (dictUpdate (filterEnviron environ) jv) (balsamEnvList job t e)) ∧
    (∀ env, get_envs environ job t e = some env →
      ∀ k, envLookup env k =
        optOr (envLookupLast (balsamEnvList job t e) k)
          (optOr (envLookupLast jv k) (envLookup (filterEnviron environ) k))) ∧
    envLookupLast (balsamEnvList job t e) "BALSAM_JOB_ID" = some job.pk ∧
    envLookupLast (balsamEnvList job t e) "BALSAM_PARENT_IDS" = some job.parents ∧
    envLookupLast (balsamEnvList job t e) "OMP_NUM_THREADS" =
      (if 1 < job.threads_per_rank then some (toString job.threads_per_rank) else none) ∧
    envLookupLast (balsamEnvList job t e) "BALSAM_JOB_TIMEOUT" =
      (if t then some "TRUE" else none) ∧
    envLookupLast (balsamEnvList job t e) "BALSAM_JOB_ERROR" =
      (if e then some "TRUE" else none) := by
  have hge : get_envs environ job t e =
      some (dictUpdate (dictUpdate (filterEnviron environ) jv) (balsamEnvList job t e)) := by
    unfold get_envs
    rw [hjv]
  refine ⟨hge, ?_, ?_, ?_, ?_, ?_, ?_⟩
  · intro env henv k
    rw [hge] at henv
    cases henv
    rw [envLookup_dictUpdate, envLookup_dictUpdate]
  all_goals
    by_cases ht : t = true <;> by_cases he : e = true <;>
      by_cases htpr : 1 < job.threads_per_rank <;>
        simp [balsamEnvList, envLookupLast, envLookup, ht, he, htpr, List.find?, optOr,
          Bool.eq_false_iff.2]

/-- Witness for C8 at concrete inputs. -/
theorem C8_get_envs_overlay_witness :
    get_envs [("PYTHONPATH", "/x"), ("HOME", "/h")] ⟨"42", "[]", "A=1", 4⟩ true false =
      some [("PYTHONPATH", "/x"), ("A", "1"), ("BALSAM_JOB_ID", "42"),
            ("BALSAM_PARENT_IDS", "[]"), ("OMP_NUM_THREADS", "4"),
            ("BALSAM_JOB_TIMEOUT", "TRUE")] ∧
    envLookup [("PYTHONPATH", "/x"), ("A", "1"), ("BALSAM_JOB_ID", "42"),
            ("BALSAM_PARENT_IDS", "[]"), ("OMP_NUM_THREADS", "4"),
            ("BALSAM_JOB_TIMEOUT", "TRUE")] "OMP_NUM_THREADS" =
      optOr (envLookupLast (balsamEnvList ⟨"42", "[]", "A=1", 4⟩ true false) "OMP_NUM_THREADS")
        (optOr (envLookupLast [("A", "1")] "OMP_NUM_THREADS")
          (envLookup (filterEnviron [("PYTHONPATH", "/x"), ("HOME", "/h")]) "OMP_NUM_THREADS")) := by
  have hjv : (if ("A=1" : String) = "" then some ([] : List (String × String))
      else parse_envstring "A=1") = some [("A", "1")] := by decide
  have h := C8_get_envs_overlay [("PYTHONPATH", "/x"), ("HOME", "/h")]
    ⟨"42", "[]", "A=1", 4⟩ true false [("A", "1")] hjv
  refine ⟨?_, ?_⟩
  · rw [h.1]
    rfl
  · have h2 := h.2.1 [("PYTHONPATH", "/x"), ("A", "1"), ("BALSAM_JOB_ID", "42"),
      ("BALSAM_PARENT_IDS", "[]"), ("OMP_NUM_THREADS", "4"), ("BALSAM_JOB_TIMEOUT", "TRUE")]
      (by rw [h.1]; rfl) "OMP_NUM_THREADS"
    exact h2

end Balsam
